import Mathlib

/-!
Verification of the scouting-entry record-management layer
(`src/model/verification/vcmanager.py` and `processor/entry_manager.py`).

The tables (`raw_entries`, `edited_entries`) are pandas DataFrames.  A
DataFrame carries an integer index (its row *labels*) alongside its rows;
`pd.concat(..., ignore_index=True)` and `reset_index` renumber the labels to
`0, 1, ..., n-1`, while `df.drop` can leave gaps.  We embed a DataFrame as a
list of `(label, row)` pairs, `Df α := List (Nat × α)`, and the renumbering
as `enumF 0` (labels assigned by position).  Positional access (`.iloc`)
reads the underlying row list; label access (`.loc`, `in df.index`) consults
the label component.  Operations that raise Python exceptions are embedded
with `Except Unit`.

External collaborators that are out of scope for the spec (the board
registry `boards.Finder`, the codec `decoder.decode`, and the time renderer
`format_time.display_time`) are passed in as function parameters: the code
under study only forwards values through them.
-/

namespace DataAnalysis

/-- A pandas DataFrame over row type `α`: rows in order, each carrying its
integer index label. -/
abbrev Df (α : Type) : Type := List (Nat × α)

/-- Label rows by position starting at `k` (pandas `RangeIndex` starting
at `k`; `enumF 0` models `reset_index` / `ignore_index=True`). -/
def enumF {α : Type} : Nat → List α → List (Nat × α)
  | _, [] => []
  | k, a :: as => (k, a) :: enumF (k + 1) as

/-- The index (list of row labels) of a DataFrame. -/
def labels {α : Type} (tbl : Df α) : List Nat := tbl.map Prod.fst

/-- The rows of a DataFrame, in order, without their labels. -/
def rowsOf {α : Type} (tbl : Df α) : List α := tbl.map Prod.snd

/-- One row of the RAW_ENTRIES table (`database.RAW_HEADER` columns). -/
structure RawEntry where
  Match : Nat
  Team : Nat
  Name : String
  StartTime : String
  Board : String
  Data : String
  Comments : String
deriving DecidableEq, Repr

/-- One row of the EDITED_ENTRIES table (`database.EDITED_HEADER` columns):
all raw columns plus `RawIndex` (NaN embedded as `none`) and `Edited`. -/
structure EditedEntry where
  RawIndex : Option Nat
  Match : Nat
  Team : Nat
  Name : String
  StartTime : String
  Board : String
  Data : String
  Comments : String
  Edited : String
deriving DecidableEq, Repr

namespace VCManager

/-- The new edited row `merge` builds from raw row `r` at raw index `i`:
`reset_index` turns the raw label into the `RawIndex` column, all data
columns are copied, and `new_data["Edited"] = " "`. -/
def mkEditedFromRaw (i : Nat) (r : RawEntry) : EditedEntry :=
  { RawIndex := some i
    Match := r.Match
    Team := r.Team
    Name := r.Name
    StartTime := r.StartTime
    Board := r.Board
    Data := r.Data
    Comments := r.Comments
    Edited := " " }

/-- The raw indices referenced by the edited table:
`edited_entries["RawIndex"].dropna()` (NaN rows dropped). -/
def referencedIndices (edited : Df EditedEntry) : List Nat :=
  edited.filterMap (fun p => p.2.RawIndex)

/-- `VerificationManager.merge` (vcmanager.py lines 145-160).
`condition = ~raw.index.isin(edited["RawIndex"].dropna())` selects the raw
rows whose index is not referenced; they are converted to edited rows and
appended with `pd.concat(..., ignore_index=True)`, which renumbers all row
labels to `0..n-1`.  The raw table always carries the default `RangeIndex`
(it is rebuilt by `update`, or round-tripped through SQL wholesale), so raw
labels are row positions.  The same concat appears in
`EntryManager.__init__` (entry_manager.py lines 44-57). -/
def merge (raw : List RawEntry) (edited : Df EditedEntry) : Df EditedEntry :=
  let referenced := referencedIndices edited
  let newData :=
    ((enumF 0 raw).filter (fun p => decide (p.1 ∉ referenced))).map
      (fun p => mkEditedFromRaw p.1 p.2)
  enumF 0 (rowsOf edited ++ newData)

/-- The number of rows of an edited table whose RawIndex equals `some i`
(the multiplicity with which raw index `i` is referenced). -/
def countRefs (tbl : Df EditedEntry) (i : Nat) : Nat :=
  tbl.countP (fun p => decide (p.2.RawIndex = some i))

/-- The row condition of `match_row`: Match, Team and Name all equal the
given values. -/
def rowPred (m t : Nat) (nm : String) (e : EditedEntry) : Bool :=
  decide (e.Match = m) && decide (e.Team = t) && decide (e.Name = nm)

/-- `VerificationManager.match_row` (lines 246-256): the sub-DataFrame of
rows whose Match, Team and Name columns all equal the given values; labels
are retained. -/
def match_row (tbl : Df EditedEntry) (m t : Nat) (nm : String) : Df EditedEntry :=
  tbl.filter (fun p => rowPred m t nm p.2)

/-- `VerificationManager.__getitem__` (lines 58-75): tests `index in
self.edited_entries.index` (label membership) but then reads
`self.edited_entries.iloc[index]` (positional access).  A missing label
raises `IndexError` explicitly; a label at or beyond the row count makes
`.iloc` raise `IndexError` as well.  Both are `Except.error ()`.  The
method wraps the row in an `entrylib.Entry` (a pure projection of the row
and the fixed board finder) together with the raw-origin entry and last
edit time; returning the row itself loses nothing relevant to the claims,
which talk about the decoded entry determined by that row. -/
def getItem (tbl : Df EditedEntry) (idx : Nat) : Except Unit EditedEntry :=
  if idx ∈ labels tbl then
    match (rowsOf tbl).get? idx with
    | some r => Except.ok r
    | none => Except.error ()
  else Except.error ()

/-- The fresh row built by `append` when no existing row matches:
`RawIndex` NaN, `StartTime` the current time's display form, `Board` the
first configured board (`board_finder.get_first().name()`), empty Data,
Comments and Edited. -/
def newAppendRow (defaultBoard now : String) (m t : Nat) (nm : String) : EditedEntry :=
  { RawIndex := none, Match := m, Team := t, Name := nm, StartTime := now,
    Board := defaultBoard, Data := "", Comments := "", Edited := "" }

/-- `VerificationManager.append` (lines 258-291).  `match_row` looks for an
existing row with the same Match/Team/Name; if none exists a new row is
built and appended with `pd.concat(..., ignore_index=True)` (labels
renumbered to `0..n-1`).  Either way the result is
`self[self.match_row(match, team, name).index[0]]`; `.index[0]` of an empty
selection would raise `IndexError` (unreachable after an insert). -/
def append (defaultBoard now : String) (tbl : Df EditedEntry) (m t : Nat)
    (nm : String) : Df EditedEntry × Except Unit EditedEntry :=
  match match_row tbl m t nm with
  | [] =>
      let tbl2 := enumF 0 (rowsOf tbl ++ [newAppendRow defaultBoard now m t nm])
      match match_row tbl2 m t nm with
      | [] => (tbl2, Except.error ())
      | q :: _ => (tbl2, getItem tbl2 q.1)
  | q :: _ => (tbl, getItem tbl q.1)

/-- Python `str.split(sep)` for a one-character separator (as used by
`entry.split(",")` and `entry.split("_")`): always returns one more token
than there are separators, tokens may be empty. -/
def pySplit (sep : Char) : List Char → List (List Char)
  | [] => [[]]
  | c :: rest =>
      match pySplit sep rest with
      | [] => [[]]
      | t :: ts => if c = sep then [] :: t :: ts else (c :: t) :: ts

/-- An ASCII decimal digit (`\d` of the import regex; Python's `\d` also
accepts other Unicode decimal digits, which is immaterial here). -/
def isDigitC (c : Char) : Bool := decide ('0' ≤ c) && decide (c ≤ '9')

/-- A lower-case hex digit (`[0-9a-f]` of the import regex). -/
def isHexC (c : Char) : Bool := isDigitC c || (decide ('a' ≤ c) && decide (c ≤ 'f'))

def digitVal (c : Char) : Nat := c.toNat - '0'.toNat

def hexDigitVal (c : Char) : Nat :=
  if isDigitC c then digitVal c else c.toNat - 'a'.toNat + 10

/-- Python `int(t)` on a string of decimal digits. -/
def decVal (t : List Char) : Nat := t.foldl (fun a c => a * 10 + digitVal c) 0

/-- Python `int(t, 16)` on a string of lower-case hex digits. -/
def hexVal (t : List Char) : Nat := t.foldl (fun a c => a * 16 + hexDigitVal c) 0

/-- The line filter of `VerificationManager.update.read_all` (line 116):
`re.match` of `\d{1,3}_\d{1,4}_[^_]+_[0-9a-f]{8}_[0-9a-f]{8}_([0-9a-f]{4})*_.*`.

Every character class of the pattern except the trailing `.*` excludes the
underscore, so the pattern's seven segments are separated exactly by the
first six underscores of the string, and `re.match` succeeds iff:
the token before the 1st underscore is 1-3 digits; the token before the 2nd
is 1-4 digits; the token before the 3rd is nonempty; the 4th and 5th tokens
are exactly 8 hex chars each; the 6th token is hex of length a multiple of
4 (the starred group, possibly zero repetitions); and a 7th segment exists
(the final `_` must be present; `.*` then matches any remainder, empty or
not, into which further underscores may fall).  `re.match` anchors at the
start only, and the greedy `.*` reaches the end of the string, so no
trailing anchor is needed. -/
def grammarMatch (s : List Char) : Bool :=
  match pySplit '_' s with
  | t1 :: t2 :: t3 :: t4 :: t5 :: t6 :: rest =>
      decide (1 ≤ t1.length) && decide (t1.length ≤ 3) && t1.all isDigitC &&
      decide (1 ≤ t2.length) && decide (t2.length ≤ 4) && t2.all isDigitC &&
      decide (1 ≤ t3.length) &&
      decide (t4.length = 8) && t4.all isHexC &&
      decide (t5.length = 8) && t5.all isHexC &&
      decide (t6.length % 4 = 0) && t6.all isHexC &&
      decide (rest ≠ [])
  | _ => false

/-- `VerificationManager.update.make_columns` (lines 127-137):
`split = entry.split("_")`, then Match/Team by `int`, Name, StartTime via
`format_time.display_time(int(split[3], 16))`, Board via
`board_finder.get_board_by_id(int(split[4], 16)).name()`, Data and Comments
as the 6th and 7th underscore-token.  `boardName` stands for the external
board registry (resolution by id, then `.name()`), `displayTime` for the
external display-form renderer. -/
def make_columns (boardName : Nat → String) (displayTime : Nat → String)
    (s : List Char) : RawEntry :=
  let split := pySplit '_' s
  { Match := decVal (split.getD 0 [])
    Team := decVal (split.getD 1 [])
    Name := String.mk (split.getD 2 [])
    StartTime := displayTime (hexVal (split.getD 3 []))
    Board := boardName (hexVal (split.getD 4 []))
    Data := String.mk (split.getD 5 [])
    Comments := String.mk (split.getD 6 []) }

/-- `VerificationManager.update.read_one` (lines 106-112), per line:
`"".join(entry.split(",")[:-1])` drops the final comma-separated field and
concatenates the remaining fields with the commas removed. -/
def stripLine (line : List Char) : List Char :=
  ((pySplit ',' line).dropLast).flatten

/-- One source line through the import pipeline: strip the trailing field,
test the grammar, convert (lines not matching are silently dropped). -/
def processLine (boardName : Nat → String) (displayTime : Nat → String)
    (line : List Char) : Option RawEntry :=
  let s := stripLine line
  if grammarMatch s then some (make_columns boardName displayTime s) else none

/-- `str(s).startswith(str(v))` as used by the Match/Team relaxation of
`search`: `startsWithCh pre s` is true iff `s` starts with `pre`. -/
def startsWithCh : List Char → List Char → Bool
  | [], _ => true
  | _ :: _, [] => false
  | p :: ps, c :: cs => (p == c) && startsWithCh ps cs

/-- Python substring containment `pat in s` (`subCh pat s`). -/
def subCh (pat : List Char) : List Char → Bool
  | [] => pat.isEmpty
  | c :: cs => startsWithCh pat (c :: cs) || subCh pat cs

/-- Python `s.lower()` restricted to the characters appearing here. -/
def lowerStr (s : String) : List Char := s.data.map Char.toLower

/-- The keyword arguments accepted by `VerificationManager.search` after
`capitalize()` normalization: a value list per recognized FILTER_HEADER
column, `none` when the keyword is absent.  Match/Team values are compared
through `str()`, so they are carried as strings. -/
structure SearchKw where
  Match : Option (List String) := none
  Team : Option (List String) := none
  Name : Option (List String) := none
  Board : Option (List String) := none
  Edited : Option (List String) := none

/-- The comprehension `{k.capitalize(): kwargs[k] for k in kwargs if kwargs[k]}`
(line 209): a supplied-but-falsy value (the empty list) is dropped exactly
like an absent keyword. -/
def cleanRule : Option (List String) → Option (List String)
  | none => none
  | some l => if l.isEmpty then none else some l

/-- Lines 211-218: the set of values of the Match column (pandas `.unique()`,
embedded as `dedup`; only membership matters) whose decimal string form
starts with the string form of some supplied value. -/
def matchSet (tbl : Df EditedEntry) (vals : List String) : List Nat :=
  ((tbl.map (fun p => p.2.Match)).dedup).filter
    (fun av => vals.any (fun v => startsWithCh v.data (Nat.repr av).data))

/-- Lines 220-227: same relaxation for the Team column. -/
def teamSet (tbl : Df EditedEntry) (vals : List String) : List Nat :=
  ((tbl.map (fun p => p.2.Team)).dedup).filter
    (fun av => vals.any (fun v => startsWithCh v.data (Nat.repr av).data))

/-- Lines 229-236: the Name column values containing some supplied name,
case-insensitively. -/
def nameSet (tbl : Df EditedEntry) (vals : List String) : List String :=
  ((tbl.map (fun p => p.2.Name)).dedup).filter
    (fun av => vals.any (fun v => subCh (lowerStr v) (lowerStr av)))

/-- The conjunction of the per-column `isin` filters applied by the loop at
lines 240-242 (the successive filters commute into one conjunctive filter;
Board and Edited have no relaxation block, so their supplied lists are used
as-is). -/
def searchKeep (tbl : Df EditedEntry) (kw : SearchKw) (p : Nat × EditedEntry) : Bool :=
  (match cleanRule kw.Match with
   | none => true
   | some vals => decide (p.2.Match ∈ matchSet tbl vals)) &&
  (match cleanRule kw.Team with
   | none => true
   | some vals => decide (p.2.Team ∈ teamSet tbl vals)) &&
  (match cleanRule kw.Name with
   | none => true
   | some vals => decide (p.2.Name ∈ nameSet tbl vals)) &&
  (match cleanRule kw.Board with
   | none => true
   | some vals => decide (p.2.Board ∈ vals)) &&
  (match cleanRule kw.Edited with
   | none => true
   | some vals => decide (p.2.Edited ∈ vals))

/-- The sort key of `sort_values(by=['Match', 'Team'])`: ascending
lexicographic order on (Match, Team). -/
def rowLe (a b : Nat × EditedEntry) : Prop :=
  a.2.Match < b.2.Match ∨ (a.2.Match = b.2.Match ∧ a.2.Team ≤ b.2.Team)

instance : DecidableRel rowLe := fun a b => by unfold rowLe; infer_instance

instance : IsTotal (Nat × EditedEntry) rowLe := ⟨by intro a b; unfold rowLe; omega⟩

instance : IsTrans (Nat × EditedEntry) rowLe := ⟨by intro a b c; unfold rowLe; omega⟩

/-- `VerificationManager.search` (lines 193-244): clean the keyword rules,
relax Match/Team to prefix sets and Name to substring sets, filter by
membership column-wise, and sort by (Match, Team).  The result keeps its
original labels (`search` does not reset the index); `sort_values` is
embedded as insertion sort (the claims only use that the result is a sorted
permutation of the kept rows, which holds for pandas' quicksort too). -/
def search (tbl : Df EditedEntry) (kw : SearchKw) : Df EditedEntry :=
  List.insertionSort rowLe (tbl.filter (searchKeep tbl kw))

/-- The spec's description of which rows `search` keeps, written from the
spec's words for comparison with `search`: for each supplied (non-falsy)
field, some supplied value matches the row under relaxed matching — decimal
string prefix for Match and Team, case-insensitive substring for Name,
exact membership for Board and Edited. -/
def relaxedKeepSpec (kw : SearchKw) (p : Nat × EditedEntry) : Bool :=
  (match cleanRule kw.Match with
   | none => true
   | some vals => vals.any (fun v => startsWithCh v.data (Nat.repr p.2.Match).data)) &&
  (match cleanRule kw.Team with
   | none => true
   | some vals => vals.any (fun v => startsWithCh v.data (Nat.repr p.2.Team).data)) &&
  (match cleanRule kw.Name with
   | none => true
   | some vals => vals.any (fun v => subCh (lowerStr v) (lowerStr p.2.Name))) &&
  (match cleanRule kw.Board with
   | none => true
   | some vals => decide (p.2.Board ∈ vals)) &&
  (match cleanRule kw.Edited with
   | none => true
   | some vals => decide (p.2.Edited ∈ vals))

end VCManager

namespace EntryManager

/-- The dictionary built by `EntryManager.entry_at` (entry_manager.py lines
116-119): the five copied columns plus the resolved board name and the
decoded data list. -/
structure EntryInfo where
  Match : Nat
  Team : Nat
  Name : String
  StartTime : String
  Comments : String
  Board : String
  Data : List String
deriving DecidableEq, Repr

/-- `EntryManager.data_row_at` (lines 100-103): label membership test, then
*positional* `.iloc[index]`.  Absent label: `None` (here `Except.ok none`);
label present but at or beyond the row count: `.iloc` raises `IndexError`
(`Except.error ()`). -/
def data_row_at (tbl : Df EditedEntry) (idx : Nat) : Except Unit (Option EditedEntry) :=
  if idx ∈ labels tbl then
    match (rowsOf tbl).get? idx with
    | some r => Except.ok (some r)
    | none => Except.error ()
  else Except.ok none

/-- The entry-info dictionary built from a row: Board resolved through the
external registry (`finder.get_board_by_name(row["Board"]).name()`,
abstracted as `boardName`), Data decoded by the external codec
(`decoder.decode(row["Data"], board)`, abstracted as `decode` applied to
the data string and the board name). -/
def entryInfoOfRow (boardName : String → String) (decode : String → String → List String)
    (row : EditedEntry) : EntryInfo :=
  { Match := row.Match
    Team := row.Team
    Name := row.Name
    StartTime := row.StartTime
    Comments := row.Comments
    Board := boardName row.Board
    Data := decode row.Data row.Board }

/-- `EntryManager.entry_at` (lines 105-121): the decoded entry info, the
empty dict `{}` (`Except.ok none`) when the row does not exist. -/
def entry_at (boardName : String → String) (decode : String → String → List String)
    (tbl : Df EditedEntry) (idx : Nat) : Except Unit (Option EntryInfo) :=
  match data_row_at tbl idx with
  | Except.error e => Except.error e
  | Except.ok none => Except.ok none
  | Except.ok (some row) => Except.ok (some (entryInfoOfRow boardName decode row))

/-- `EntryManager.get_relative_entry` (lines 123-138).  `indices` is
`list(filtered_table["index"].values)`: the label list of a filtered view
(`filter` moves the original labels into an `index` column via
`reset_index`).  Python's `%` on a positive length yields a value in
`[0, len)`, also for a negative left operand, matching `Int.emod`. -/
def get_relative_entry (boardName : String → String)
    (decode : String → String → List String) (tbl : Df EditedEntry)
    (indices : List Nat) (current : Nat) (inc : Int) :
    Except Unit (Option EntryInfo) :=
  if indices.length ≠ 0 then
    if current ∈ indices then
      entry_at boardName decode tbl
        (indices.getD
          ((((indices.indexOf current : Nat) : Int) + inc).emod (indices.length : Int)).toNat
          0)
    else entry_at boardName decode tbl (indices.getD 0 0)
  else Except.ok none

/-- `EntryManager.next` (lines 140-141): `get_relative_entry` with `+1`. -/
def nextEntry (boardName : String → String) (decode : String → String → List String)
    (tbl : Df EditedEntry) (indices : List Nat) (current : Nat) :
    Except Unit (Option EntryInfo) :=
  get_relative_entry boardName decode tbl indices current 1

/-- `df.loc[index_value, col]`: label-based lookup of the first row carrying
the label; raises `KeyError` when the label is absent (`none` here, turned
into the error by the caller). -/
def lookupLabel (tbl : Df EditedEntry) (idx : Nat) : Option EditedEntry :=
  match tbl with
  | [] => none
  | p :: ps => if p.1 = idx then some p.2 else lookupLabel ps idx

/-- `EntryManager.remove_entry` (lines 178-191): reads
`str(self.edited_data.loc[index_value, col])` for Match/Team/Name — a
`KeyError` propagates when `index_value` is not a label of the table — and
drops the row(s) labelled `index_value` only if all three stringified
values equal the supplied arguments (`str(value) == arg`; `arg` is
compared as given, so the function is modelled for string arguments, the
only type that can ever compare equal). -/
def remove_entry (tbl : Df EditedEntry) (m t nm : String) (idx : Nat) :
    Except Unit (Df EditedEntry) :=
  match lookupLabel tbl idx with
  | none => Except.error ()
  | some row =>
      if Nat.repr row.Match = m ∧ Nat.repr row.Team = t ∧ row.Name = nm then
        Except.ok (tbl.filter (fun p => decide (p.1 ≠ idx)))
      else Except.ok tbl

end EntryManager

/-! Concrete sample data used by witnesses and counterexamples. -/

/-- A sample edited row. -/
def sampleRow : EditedEntry :=
  { RawIndex := none, Match := 5, Team := 200, Name := "Sam", StartTime := "t0",
    Board := "Comp", Data := "", Comments := "", Edited := "" }

/-- A sample raw row. -/
def sampleRaw : RawEntry :=
  { Match := 5, Team := 200, Name := "Sam", StartTime := "t0", Board := "Comp",
    Data := "00ff", Comments := "hello" }

/-- An edited row with a given Team value (Match fixed). -/
def teamRow (t : Nat) : EditedEntry :=
  { RawIndex := none, Match := 1, Team := t, Name := "N", StartTime := "t0",
    Board := "Comp", Data := "", Comments := "", Edited := " " }

/-- An edited row with a given Match value, used to tell rows apart. -/
def matchRowOf (m : Nat) : EditedEntry :=
  { RawIndex := none, Match := m, Team := 0, Name := "N", StartTime := "t0",
    Board := "Comp", Data := "", Comments := "", Edited := " " }

/-- A table whose labels have a gap (as left behind by a row deletion):
rows at positions 0 and 1 carry labels 0 and 2. -/
def gapTbl : Df EditedEntry := [(0, matchRowOf 0), (2, matchRowOf 2)]

/-- A thirteen-row table with the default contiguous labels; row `i` has
Match `i`, so rows can be told apart. -/
def navTbl : Df EditedEntry := enumF 0 ((List.range 13).map matchRowOf)

/-- A four-row table with teams 120, 2001, 20 and 200 (all Match 1). -/
def searchExampleTbl : Df EditedEntry :=
  [(0, teamRow 120), (1, teamRow 2001), (2, teamRow 20), (3, teamRow 200)]

/-- The rows of `searchExampleTbl` whose team starts with "20", sorted by
(Match, Team): teams 20, 200 and 2001 — team 120 is excluded. -/
def searchExampleExpected : Df EditedEntry :=
  [(2, teamRow 20), (3, teamRow 200), (1, teamRow 2001)]

/-- Board registry stand-in resolving id 1 to the board named "Comp". -/
def boardById0 : Nat → String := fun i => if i = 1 then "Comp" else "UnknownBoard"

/-- Trivial stand-in for `format_time.display_time`. -/
def dt0 : Nat → String := fun n => Nat.repr n

/-- Trivial stand-in for board-name resolution (`get_board_by_name(n).name()`). -/
def bn0 : String → String := fun s => s

/-- Trivial stand-in for the codec. -/
def dec0 : String → String → List String := fun _ _ => []

section EnumLemmas

variable {α β : Type}

theorem enumF_map_snd (k : Nat) (l : List α) : (enumF k l).map Prod.snd = l := by
  induction l generalizing k with
  | nil => rfl
  | cons a as ih => simp [enumF, ih]

theorem enumF_length (k : Nat) (l : List α) : (enumF k l).length = l.length := by
  induction l generalizing k with
  | nil => rfl
  | cons a as ih => simp [enumF, ih]

theorem enumF_append (k : Nat) (l₁ l₂ : List α) :
    enumF k (l₁ ++ l₂) = enumF k l₁ ++ enumF (k + l₁.length) l₂ := by
  induction l₁ generalizing k with
  | nil => simp [enumF]
  | cons a as ih =>
      have h1 : enumF k ((a :: as) ++ l₂) = (k, a) :: enumF (k + 1) (as ++ l₂) := rfl
      rw [h1, ih]
      have he : k + 1 + as.length = k + (a :: as).length := by
        simp only [List.length_cons]
        omega
      rw [he]
      rfl

theorem mem_enumF {k : Nat} {l : List α} {p : Nat × α} (hp : p ∈ enumF k l) :
    k ≤ p.1 ∧ p.1 < k + l.length ∧ l.get? (p.1 - k) = some p.2 := by
  induction l generalizing k with
  | nil => simp [enumF] at hp
  | cons a as ih =>
      simp only [enumF, List.mem_cons] at hp
      rcases hp with h | h
      · subst h
        refine ⟨Nat.le_refl _, by simp, ?_⟩
        simp
      · obtain ⟨h1, h2, h3⟩ := ih h
        refine ⟨by omega, by simp only [List.length_cons]; omega, ?_⟩
        have hd : p.1 - k = (p.1 - (k + 1)) + 1 := by omega
        rw [hd]
        simpa [List.get?] using h3

theorem get_mem_enumF {k : Nat} {l : List α} {j : Nat} {a : α}
    (hj : l.get? j = some a) : (k + j, a) ∈ enumF k l := by
  induction l generalizing k j with
  | nil => simp at hj
  | cons x xs ih =>
      cases j with
      | zero =>
          simp only [List.get?] at hj
          cases hj
          simp [enumF]
      | succ j' =>
          simp only [List.get?] at hj
          have := ih (k := k + 1) hj
          simp only [enumF, List.mem_cons]
          right
          have he : k + (j' + 1) = (k + 1) + j' := by omega
          rw [he]
          exact this

theorem filterMap_snd_enumF (f : α → Option β) (k : Nat) (l : List α) :
    (enumF k l).filterMap (fun p => f p.2) = l.filterMap f := by
  induction l generalizing k with
  | nil => rfl
  | cons a as ih =>
      simp only [enumF, List.filterMap_cons]
      cases f a <;> simp [ih]

theorem enumF_eq_self_of_labels {tbl : Df α} {k : Nat}
    (h : labels tbl = List.range' k tbl.length) :
    enumF k (rowsOf tbl) = tbl := by
  induction tbl generalizing k with
  | nil => rfl
  | cons p ps ih =>
      obtain ⟨a, b⟩ := p
      simp only [labels, List.map_cons, List.length_cons, List.range'] at h
      obtain ⟨h1, h2⟩ := List.cons.inj h
      subst h1
      simp only [rowsOf, List.map_cons, enumF]
      exact congrArg (fun t => (a, b) :: t) (ih h2)

theorem labels_enumF (k : Nat) (l : List α) :
    labels (enumF k l) = List.range' k l.length := by
  induction l generalizing k with
  | nil => rfl
  | cons a as ih =>
      simp only [enumF, labels, List.map_cons, List.length_cons, List.range']
      exact congrArg (fun t => k :: t) (ih (k + 1))

end EnumLemmas

section MergeLemmas

open VCManager

theorem merge_def (raw : List RawEntry) (edited : Df EditedEntry) :
    merge raw edited =
      enumF 0 (rowsOf edited ++
        ((enumF 0 raw).filter
          (fun p => decide (p.1 ∉ referencedIndices edited))).map
          (fun p => mkEditedFromRaw p.1 p.2)) := rfl

theorem exists_label_enumF {α : Type} {a : α} {l : List α} (h : a ∈ l) (k : Nat) :
    ∃ j, (j, a) ∈ enumF k l := by
  induction l generalizing k with
  | nil => cases h
  | cons x xs ih =>
      rcases List.mem_cons.mp h with h | h
      · exact ⟨k, by simp [enumF, h]⟩
      · obtain ⟨j, hj⟩ := ih h (k + 1)
        exact ⟨j, by simp [enumF, hj]⟩

theorem countP_snd_enumF {α : Type} (q : α → Bool) (k : Nat) (l : List α) :
    (enumF k l).countP (fun p => q p.2) = l.countP q := by
  induction l generalizing k with
  | nil => rfl
  | cons a as ih =>
      simp only [enumF, List.countP_cons, ih]

theorem countP_fst_enumF {α : Type} (i : Nat) (k : Nat) (l : List α) :
    (enumF k l).countP (fun p => decide (p.1 = i)) =
      if k ≤ i ∧ i < k + l.length then 1 else 0 := by
  induction l generalizing k with
  | nil =>
      have h : ¬ (k ≤ i ∧ i < k) := by omega
      simp [enumF, h]
  | cons a as ih =>
      simp only [enumF, List.countP_cons, ih, List.length_cons]
      by_cases hik : k = i
      · subst hik
        have h1 : ¬ (k + 1 ≤ k ∧ k < k + 1 + as.length) := by omega
        have h2 : k ≤ k ∧ k < k + (as.length + 1) := by omega
        simp [h1, h2]
      · have h1 : (decide ((k, a).1 = i) : Bool) = false := by simpa using hik
        rw [h1]
        by_cases h : k + 1 ≤ i ∧ i < k + 1 + as.length
        · have h2 : k ≤ i ∧ i < k + (as.length + 1) := by omega
          simp [h, h2]
        · have h2 : ¬ (k ≤ i ∧ i < k + (as.length + 1)) := by omega
          simp [h, h2]

theorem mem_referenced_iff_countRefs {edited : Df EditedEntry} {i : Nat} :
    i ∈ referencedIndices edited ↔ 0 < countRefs edited i := by
  rw [countRefs, List.countP_pos_iff]
  constructor
  · intro h
    obtain ⟨p, hp, hpi⟩ := List.mem_filterMap.mp h
    exact ⟨p, hp, by simp [hpi]⟩
  · intro ⟨p, hp, hpi⟩
    exact List.mem_filterMap.mpr ⟨p, hp, by simpa using hpi⟩

theorem mem_referenced_merge {raw : List RawEntry} {edited : Df EditedEntry} {i : Nat}
    (hi : i < raw.length) : i ∈ referencedIndices (merge raw edited) := by
  show i ∈ (merge raw edited).filterMap (fun p => p.2.RawIndex)
  rw [merge_def, List.mem_filterMap]
  by_cases hmem : i ∈ referencedIndices edited
  · obtain ⟨p, hp, hpi⟩ := List.mem_filterMap.mp hmem
    have hrow : p.2 ∈ rowsOf edited ++
        ((enumF 0 raw).filter
          (fun q => decide (q.1 ∉ referencedIndices edited))).map
          (fun q => mkEditedFromRaw q.1 q.2) :=
      List.mem_append_left _ (List.mem_map_of_mem Prod.snd hp)
    obtain ⟨j, hj⟩ := exists_label_enumF hrow 0
    exact ⟨(j, p.2), hj, hpi⟩
  · obtain ⟨x, hx⟩ : ∃ x, raw.get? i = some x :=
      ⟨raw.get ⟨i, hi⟩, List.get?_eq_get hi⟩
    have hmemE : (i, x) ∈ enumF 0 raw := by
      have := get_mem_enumF (k := 0) hx
      simpa using this
    have hfil : (i, x) ∈ (enumF 0 raw).filter
        (fun q => decide (q.1 ∉ referencedIndices edited)) :=
      List.mem_filter.mpr ⟨hmemE, by simpa using hmem⟩
    have hrow : mkEditedFromRaw i x ∈ rowsOf edited ++
        ((enumF 0 raw).filter
          (fun q => decide (q.1 ∉ referencedIndices edited))).map
          (fun q => mkEditedFromRaw q.1 q.2) :=
      List.mem_append_right _ (List.mem_map.mpr ⟨(i, x), hfil, rfl⟩)
    obtain ⟨j, hj⟩ := exists_label_enumF hrow 0
    exact ⟨(j, mkEditedFromRaw i x), hj, rfl⟩

end MergeLemmas

/-- C1: merge is idempotent — re-running `merge` with the same raw table
changes nothing: after the first merge every raw index is referenced by
some edited row, so the second merge selects no new rows, and the
relabelling `ignore_index=True` concat reproduces the same table. -/
theorem merge_idempotent (raw : List RawEntry) (edited : Df EditedEntry) :
    VCManager.merge raw (VCManager.merge raw edited) = VCManager.merge raw edited := by
  have hfil :
      (enumF 0 raw).filter
        (fun p => decide (p.1 ∉ VCManager.referencedIndices (VCManager.merge raw edited))) = [] := by
    rw [List.filter_eq_nil_iff]
    intro p hp
    have h1 := mem_enumF hp
    have h2 : p.1 < raw.length := by
      have := h1.2.1
      omega
    simp [mem_referenced_merge h2]
  conv_lhs => rw [merge_def]
  rw [hfil]
  simp only [List.map_nil, List.append_nil]
  have hrows : rowsOf (VCManager.merge raw edited) =
      rowsOf edited ++
        ((enumF 0 raw).filter
          (fun p => decide (p.1 ∉ VCManager.referencedIndices edited))).map
          (fun p => VCManager.mkEditedFromRaw p.1 p.2) := by
    rw [merge_def]
    exact enumF_map_snd 0 _
  rw [hrows]
  exact (merge_def raw edited).symm

/-- C2 (counterexample to the claim as stated): merge does not preserve row
identity in general — `pd.concat(..., ignore_index=True)` renumbers all
labels, so a pre-existing row labelled 1 is labelled 0 after a merge, even
with an empty raw table. -/
theorem merge_identity_counterexample :
    ¬ ((1, sampleRow) ∈ VCManager.merge [] ([(1, sampleRow)] : Df EditedEntry)) := by
  decide

/-- C2 (amended): merge only appends — the first `edited.length` rows of the
result are exactly the pre-existing rows with unchanged field values and
unchanged relative positions; and whenever the edited table's labels are
already the contiguous `0..n-1` (as every table produced by load, merge or
append is), the pre-existing rows also keep their identity, i.e. the merged
table begins with the old table itself. -/
theorem merge_preserves_rows (raw : List RawEntry) (edited : Df EditedEntry) :
    (rowsOf (VCManager.merge raw edited)).take edited.length = rowsOf edited
    ∧ edited.length ≤ (VCManager.merge raw edited).length
    ∧ (labels edited = List.range' 0 edited.length →
        (VCManager.merge raw edited).take edited.length = edited) := by
  have hlen : (rowsOf edited).length = edited.length := List.length_map _ _
  refine ⟨?_, ?_, ?_⟩
  · have hrows : rowsOf (VCManager.merge raw edited) =
        rowsOf edited ++
          ((enumF 0 raw).filter
            (fun p => decide (p.1 ∉ VCManager.referencedIndices edited))).map
            (fun p => VCManager.mkEditedFromRaw p.1 p.2) := by
      rw [merge_def]
      exact enumF_map_snd 0 _
    rw [hrows, ← hlen]
    exact List.take_left _ _
  · rw [merge_def, enumF_length, List.length_append]
    omega
  · intro h
    rw [merge_def, enumF_append]
    have h1 : (enumF 0 (rowsOf edited)).length = edited.length := by
      rw [enumF_length]
      exact hlen
    rw [← h1, List.take_left]
    exact enumF_eq_self_of_labels h

/-- Witness for `merge_preserves_rows` at a one-row table carrying the
default labels. -/
theorem merge_preserves_rows_witness :
    labels ([(0, sampleRow)] : Df EditedEntry) = List.range' 0 1
    ∧ (VCManager.merge [sampleRaw] ([(0, sampleRow)] : Df EditedEntry)).take 1 =
        [(0, sampleRow)] :=
  ⟨by decide,
    (merge_preserves_rows [sampleRaw] ([(0, sampleRow)] : Df EditedEntry)).2.2 (by decide)⟩

theorem countRefs_merge (raw : List RawEntry) (edited : Df EditedEntry) (i : Nat) :
    VCManager.countRefs (VCManager.merge raw edited) i =
      VCManager.countRefs edited i +
        List.countP
          (fun p => decide (p.1 = i) && decide (p.1 ∉ VCManager.referencedIndices edited))
          (enumF 0 raw) := by
  have h1 : VCManager.countRefs (VCManager.merge raw edited) i =
      List.countP (fun e => decide (e.RawIndex = some i))
        (rowsOf edited ++
          ((enumF 0 raw).filter
            (fun p => decide (p.1 ∉ VCManager.referencedIndices edited))).map
            (fun p => VCManager.mkEditedFromRaw p.1 p.2)) := by
    rw [merge_def]
    exact countP_snd_enumF (fun e : EditedEntry => decide (e.RawIndex = some i)) 0 _
  rw [h1, List.countP_append]
  congr 1
  · unfold rowsOf VCManager.countRefs
    rw [List.countP_map]
    rfl
  · rw [List.countP_map, List.countP_filter]
    apply List.countP_congr
    intro p _
    simp [VCManager.mkEditedFromRaw, Function.comp]

/-- C3: merge establishes coverage — if before the merge no raw index is
referenced by more than one edited row, then after the merge every index of
the raw table is referenced by exactly one edited row. -/
theorem merge_coverage (raw : List RawEntry) (edited : Df EditedEntry)
    (h : ∀ j, j < raw.length → VCManager.countRefs edited j ≤ 1) :
    ∀ i, i < raw.length → VCManager.countRefs (VCManager.merge raw edited) i = 1 := by
  intro i hi
  rw [countRefs_merge]
  by_cases hmem : i ∈ VCManager.referencedIndices edited
  · have hpos : 0 < VCManager.countRefs edited i := mem_referenced_iff_countRefs.mp hmem
    have hone : VCManager.countRefs edited i = 1 := by
      have := h i hi
      omega
    have hzero : List.countP
        (fun p => decide (p.1 = i) && decide (p.1 ∉ VCManager.referencedIndices edited))
        (enumF 0 raw) = 0 := by
      rw [List.countP_eq_zero]
      intro p _
      by_cases hpi : p.1 = i
      · simp [hpi, hmem]
      · simp [hpi]
    rw [hone, hzero]
  · have hz : VCManager.countRefs edited i = 0 := by
      by_contra hne
      exact hmem (mem_referenced_iff_countRefs.mpr (Nat.pos_of_ne_zero hne))
    have hcnt : List.countP
        (fun p => decide (p.1 = i) && decide (p.1 ∉ VCManager.referencedIndices edited))
        (enumF 0 raw) =
        List.countP (fun p => decide (p.1 = i)) (enumF 0 raw) := by
      apply List.countP_congr
      intro p _
      by_cases hpi : p.1 = i
      · simp [hpi, hmem]
      · simp [hpi]
    rw [hz, hcnt, countP_fst_enumF]
    have hcond : 0 ≤ i ∧ i < 0 + raw.length := by omega
    rw [if_pos hcond]

/-- Witness for `merge_coverage`: an empty edited table and one raw row. -/
theorem merge_coverage_witness :
    (∀ j, j < 1 → VCManager.countRefs ([] : Df EditedEntry) j ≤ 1)
    ∧ VCManager.countRefs (VCManager.merge [sampleRaw] ([] : Df EditedEntry)) 0 = 1 :=
  ⟨by decide, merge_coverage [sampleRaw] [] (by decide) 0 (by decide)⟩

section SearchLemmas

theorem decide_mem_filter_dedup {α : Type} [DecidableEq α] {x : α} {l : List α}
    (pred : α → Bool) (hx : x ∈ l) :
    decide (x ∈ l.dedup.filter pred) = pred x := by
  cases hpx : pred x with
  | true =>
      have hmem : x ∈ l.dedup.filter pred :=
        List.mem_filter.mpr ⟨List.mem_dedup.mpr hx, hpx⟩
      simp [hmem]
  | false =>
      have hmem : x ∉ l.dedup.filter pred := by
        intro hmem
        have h2 := (List.mem_filter.mp hmem).2
        rw [hpx] at h2
        simp at h2
      simp [hmem]

theorem searchKeep_eq_spec {tbl : Df EditedEntry} (kw : VCManager.SearchKw)
    {p : Nat × EditedEntry} (hp : p ∈ tbl) :
    VCManager.searchKeep tbl kw p = VCManager.relaxedKeepSpec kw p := by
  unfold VCManager.searchKeep VCManager.relaxedKeepSpec
  have hM : (match VCManager.cleanRule kw.Match with
      | none => true
      | some vals => decide (p.2.Match ∈ VCManager.matchSet tbl vals)) =
      (match VCManager.cleanRule kw.Match with
      | none => true
      | some vals => vals.any (fun v => VCManager.startsWithCh v.data (Nat.repr p.2.Match).data)) := by
    cases VCManager.cleanRule kw.Match with
    | none => rfl
    | some vals =>
        exact decide_mem_filter_dedup _ (List.mem_map_of_mem (fun q => q.2.Match) hp)
  have hT : (match VCManager.cleanRule kw.Team with
      | none => true
      | some vals => decide (p.2.Team ∈ VCManager.teamSet tbl vals)) =
      (match VCManager.cleanRule kw.Team with
      | none => true
      | some vals => vals.any (fun v => VCManager.startsWithCh v.data (Nat.repr p.2.Team).data)) := by
    cases VCManager.cleanRule kw.Team with
    | none => rfl
    | some vals =>
        exact decide_mem_filter_dedup _ (List.mem_map_of_mem (fun q => q.2.Team) hp)
  have hN : (match VCManager.cleanRule kw.Name with
      | none => true
      | some vals => decide (p.2.Name ∈ VCManager.nameSet tbl vals)) =
      (match VCManager.cleanRule kw.Name with
      | none => true
      | some vals => vals.any (fun v => VCManager.subCh (VCManager.lowerStr v) (VCManager.lowerStr p.2.Name))) := by
    cases VCManager.cleanRule kw.Name with
    | none => rfl
    | some vals =>
        exact decide_mem_filter_dedup _ (List.mem_map_of_mem (fun q => q.2.Name) hp)
  rw [hM, hT, hN]

end SearchLemmas

/-- C6: search keeps exactly the rows accepted by the spec's relaxed
matching (decimal-string prefix for Match/Team with OR across values,
case-insensitive substring for Name, exact membership for the remaining
recognized fields, AND across fields), returned sorted ascending by
(Match, Team); in particular on a table with teams 120, 2001, 20 and 200,
searching team "20" returns teams 20, 200, 2001 in order and drops 120. -/
theorem search_characterization :
    (∀ (tbl : Df EditedEntry) (kw : VCManager.SearchKw),
      (VCManager.search tbl kw).Perm (tbl.filter (VCManager.relaxedKeepSpec kw))
      ∧ List.Sorted VCManager.rowLe (VCManager.search tbl kw))
    ∧ VCManager.search searchExampleTbl { Team := some ["20"] } = searchExampleExpected := by
  constructor
  · intro tbl kw
    constructor
    · have hfeq : tbl.filter (VCManager.searchKeep tbl kw) =
          tbl.filter (VCManager.relaxedKeepSpec kw) :=
        List.filter_congr (fun p hp => searchKeep_eq_spec kw hp)
      have hs : VCManager.search tbl kw =
          List.insertionSort VCManager.rowLe (tbl.filter (VCManager.searchKeep tbl kw)) := rfl
      rw [hs, hfeq]
      exact List.perm_insertionSort _ _
    · exact List.sorted_insertionSort _ _
  · decide

/-- C10: a search criterion supplied with an empty value list is falsy and
is dropped by the keyword-cleaning comprehension, so it imposes no
constraint: `search(team=[])` equals `search()` on every table. -/
theorem search_empty_criteria (tbl : Df EditedEntry) :
    VCManager.search tbl { Team := some [] } = VCManager.search tbl {} := rfl

section AppendLemmas

theorem getItem_of_labels_range {tbl : Df EditedEntry} {q : Nat × EditedEntry}
    (h : labels tbl = List.range' 0 tbl.length) (hq : q ∈ tbl) :
    VCManager.getItem tbl q.1 = Except.ok q.2 := by
  have htbl : enumF 0 (rowsOf tbl) = tbl := enumF_eq_self_of_labels h
  have hq2 : q ∈ enumF 0 (rowsOf tbl) := by
    rw [htbl]
    exact hq
  obtain ⟨h1, h2, h3⟩ := mem_enumF hq2
  have hlen : (rowsOf tbl).length = tbl.length := List.length_map _ _
  have hmem : q.1 ∈ labels tbl := by
    rw [h, List.mem_range'_1]
    omega
  unfold VCManager.getItem
  rw [if_pos hmem]
  have h3' : (rowsOf tbl).get? q.1 = some q.2 := by simpa using h3
  rw [h3']

theorem match_row_nil_rows {tbl : Df EditedEntry} {m t : Nat} {nm : String}
    (h : VCManager.match_row tbl m t nm = []) :
    ∀ e ∈ rowsOf tbl, VCManager.rowPred m t nm e = false := by
  intro e he
  obtain ⟨p, hp, hpe⟩ := List.mem_map.mp he
  have hnp := List.filter_eq_nil_iff.mp h p hp
  rw [← hpe]
  exact Bool.eq_false_iff.mpr hnp

theorem match_row_append_single {tbl : Df EditedEntry} {m t : Nat} {nm : String}
    {x : EditedEntry}
    (hnil : VCManager.match_row tbl m t nm = [])
    (hx : VCManager.rowPred m t nm x = true) :
    VCManager.match_row (enumF 0 (rowsOf tbl ++ [x])) m t nm =
      [((rowsOf tbl).length, x)] := by
  unfold VCManager.match_row
  rw [enumF_append, List.filter_append]
  have h1 : (enumF 0 (rowsOf tbl)).filter (fun p => VCManager.rowPred m t nm p.2) = [] := by
    rw [List.filter_eq_nil_iff]
    intro p hp
    obtain ⟨_, _, h3⟩ := mem_enumF hp
    have hpm : p.2 ∈ rowsOf tbl := List.get?_mem (by simpa using h3)
    have hf := match_row_nil_rows hnil p.2 hpm
    simp [hf]
  rw [h1]
  simp [enumF, hx]

end AppendLemmas

/-- C4 (counterexample to the claim as stated): on a table whose single
matching row carries label 1 rather than 0 (as arises when labels have
gaps), `append` finds the row but the final `self[label]` lookup reads
`.iloc[1]` out of bounds: the call raises IndexError instead of returning
the existing row's decoded entry. -/
theorem append_stale_label_counterexample :
    VCManager.append "B" "now" ([(1, sampleRow)] : Df EditedEntry) 5 200 "Sam" =
      ([(1, sampleRow)], Except.error ()) := rfl

/-- C4 (amended): on a table with the default contiguous labels `0..n-1`,
`append` is an idempotent insert: if a (match, team, name) row exists the
call returns the first such row's entry and leaves the table unchanged;
otherwise it appends exactly one fresh row (`RawIndex` unset, `Edited`
blank, `StartTime` now, default board, empty data and comments) and returns
it, and a second identical call inserts nothing and returns the same entry.
Without the label hypothesis the final lookup can raise IndexError. -/
theorem append_idempotent_insert (d now now2 : String) (tbl : Df EditedEntry)
    (m t : Nat) (nm : String)
    (hl : labels tbl = List.range' 0 tbl.length) :
    (∀ q qs, VCManager.match_row tbl m t nm = q :: qs →
        VCManager.append d now tbl m t nm = (tbl, Except.ok q.2))
    ∧ (VCManager.match_row tbl m t nm = [] →
        VCManager.append d now tbl m t nm =
          (enumF 0 (rowsOf tbl ++ [VCManager.newAppendRow d now m t nm]),
            Except.ok (VCManager.newAppendRow d now m t nm)))
    ∧ (VCManager.match_row tbl m t nm = [] →
        VCManager.append d now2 (VCManager.append d now tbl m t nm).1 m t nm =
          ((VCManager.append d now tbl m t nm).1,
            Except.ok (VCManager.newAppendRow d now m t nm))) := by
  have hpredNew : VCManager.rowPred m t nm (VCManager.newAppendRow d now m t nm) = true := by
    simp [VCManager.rowPred, VCManager.newAppendRow]
  have hitem : VCManager.getItem
      (enumF 0 (rowsOf tbl ++ [VCManager.newAppendRow d now m t nm]))
      ((rowsOf tbl).length) = Except.ok (VCManager.newAppendRow d now m t nm) := by
    have hlab2 : labels (enumF 0 (rowsOf tbl ++ [VCManager.newAppendRow d now m t nm])) =
        List.range' 0 (enumF 0 (rowsOf tbl ++ [VCManager.newAppendRow d now m t nm])).length := by
      rw [labels_enumF, enumF_length]
    have hget : (rowsOf tbl ++ [VCManager.newAppendRow d now m t nm]).get? (rowsOf tbl).length =
        some (VCManager.newAppendRow d now m t nm) := List.get?_concat_length _ _
    have hmem2 : ((rowsOf tbl).length, VCManager.newAppendRow d now m t nm) ∈
        enumF 0 (rowsOf tbl ++ [VCManager.newAppendRow d now m t nm]) := by
      have hm := get_mem_enumF (k := 0) hget
      simpa using hm
    exact getItem_of_labels_range hlab2 hmem2
  have hins : VCManager.match_row tbl m t nm = [] →
      VCManager.append d now tbl m t nm =
        (enumF 0 (rowsOf tbl ++ [VCManager.newAppendRow d now m t nm]),
          Except.ok (VCManager.newAppendRow d now m t nm)) := by
    intro hmr
    have hmr2 := match_row_append_single hmr hpredNew
    simp only [VCManager.append, hmr, hmr2]
    rw [hitem]
  refine ⟨?_, hins, ?_⟩
  · intro q qs hmr
    have hq : q ∈ tbl := by
      have hq0 : q ∈ VCManager.match_row tbl m t nm := by
        rw [hmr]
        exact List.mem_cons_self _ _
      exact List.mem_of_mem_filter hq0
    have hget := getItem_of_labels_range hl hq
    simp only [VCManager.append, hmr]
    rw [hget]
  · intro hmr
    have htbl2 : (VCManager.append d now tbl m t nm).1 =
        enumF 0 (rowsOf tbl ++ [VCManager.newAppendRow d now m t nm]) := by
      rw [hins hmr]
    rw [htbl2]
    have hmr2 := match_row_append_single hmr hpredNew
    simp only [VCManager.append, hmr2]
    rw [hitem]

/-- Witness for `append_idempotent_insert`: starting from the empty table,
the first append inserts one row labelled 0 and the second returns it
unchanged. -/
theorem append_idempotent_insert_witness :
    labels ([] : Df EditedEntry) = List.range' 0 0
    ∧ VCManager.append "B" "now" ([] : Df EditedEntry) 5 200 "Sam" =
        ([(0, VCManager.newAppendRow "B" "now" 5 200 "Sam")],
          Except.ok (VCManager.newAppendRow "B" "now" 5 200 "Sam"))
    ∧ VCManager.append "B" "now2"
        (VCManager.append "B" "now" ([] : Df EditedEntry) 5 200 "Sam").1 5 200 "Sam" =
        ((VCManager.append "B" "now" ([] : Df EditedEntry) 5 200 "Sam").1,
          Except.ok (VCManager.newAppendRow "B" "now" 5 200 "Sam")) := by
  have h := append_idempotent_insert "B" "now" "now2" ([] : Df EditedEntry) 5 200 "Sam" rfl
  exact ⟨rfl, h.2.1 rfl, h.2.2 rfl⟩

section ImportLemmas

theorem pySplit_ne_nil (sep : Char) (s : List Char) : VCManager.pySplit sep s ≠ [] := by
  cases s with
  | nil => simp [VCManager.pySplit]
  | cons c rest =>
      unfold VCManager.pySplit
      cases h : VCManager.pySplit sep rest with
      | nil => simp
      | cons t ts => by_cases hc : c = sep <;> simp [hc]

theorem pySplit_append_sep {sep : Char} {xs : List Char} (h : sep ∉ xs) (ys : List Char) :
    VCManager.pySplit sep (xs ++ sep :: ys) = xs :: VCManager.pySplit sep ys := by
  induction xs with
  | nil =>
      have hstep : VCManager.pySplit sep ([] ++ sep :: ys) =
          match VCManager.pySplit sep ys with
          | [] => [[]]
          | t :: ts => if sep = sep then [] :: t :: ts else (sep :: t) :: ts := rfl
      rw [hstep]
      cases hys : VCManager.pySplit sep ys with
      | nil => exact absurd hys (pySplit_ne_nil sep ys)
      | cons t ts => simp
  | cons x xs ih =>
      have hx : x ≠ sep := fun he => h (by simp [he])
      have hxs : sep ∉ xs := fun hm => h (List.mem_cons_of_mem _ hm)
      have hstep : VCManager.pySplit sep ((x :: xs) ++ sep :: ys) =
          match VCManager.pySplit sep (xs ++ sep :: ys) with
          | [] => [[]]
          | t :: ts => if x = sep then [] :: t :: ts else (x :: t) :: ts := rfl
      rw [hstep, ih hxs]
      simp [hx]

theorem not_underscore_of_digits {t : List Char}
    (h : t.all VCManager.isDigitC = true) : '_' ∉ t := by
  intro hm
  have h2 := List.all_eq_true.mp h _ hm
  have hd : VCManager.isDigitC '_' = false := by decide
  rw [hd] at h2
  simp at h2

theorem not_underscore_of_hex {t : List Char}
    (h : t.all VCManager.isHexC = true) : '_' ∉ t := by
  intro hm
  have h2 := List.all_eq_true.mp h _ hm
  have hd : VCManager.isHexC '_' = false := by decide
  rw [hd] at h2
  simp at h2

end ImportLemmas

/-- C5 (amended): for every stripped source line matching the import
grammar — decomposed into its six underscore-delimited leading tokens and
the free remainder — the conversion yields match and team as the decimal
values of the first two tokens, the name verbatim, the start time rendered
from the hex value of the fourth token, the board resolved from the hex
value of the fifth, the data token stored as the raw encoded string, and as
comments only the part of the free remainder up to its first underscore
(`split("_")[6]`): comments are verbatim exactly when they contain no
underscore (and, upstream, no comma — `read_one` deletes commas). -/
theorem import_line_conversion (boardName displayTime : Nat → String)
    (t1 t2 t3 t4 t5 t6 rest : List Char)
    (h1 : t1.all VCManager.isDigitC = true) (h1a : 1 ≤ t1.length) (h1b : t1.length ≤ 3)
    (h2 : t2.all VCManager.isDigitC = true) (h2a : 1 ≤ t2.length) (h2b : t2.length ≤ 4)
    (h3 : t3 ≠ []) (h3u : '_' ∉ t3)
    (h4 : t4.all VCManager.isHexC = true) (h4l : t4.length = 8)
    (h5 : t5.all VCManager.isHexC = true) (h5l : t5.length = 8)
    (h6 : t6.all VCManager.isHexC = true) (h6l : t6.length % 4 = 0) :
    VCManager.grammarMatch
      (t1 ++ '_' :: (t2 ++ '_' :: (t3 ++ '_' :: (t4 ++ '_' :: (t5 ++ '_' :: (t6 ++ '_' :: rest)))))) = true
    ∧ VCManager.make_columns boardName displayTime
      (t1 ++ '_' :: (t2 ++ '_' :: (t3 ++ '_' :: (t4 ++ '_' :: (t5 ++ '_' :: (t6 ++ '_' :: rest)))))) =
      { Match := VCManager.decVal t1
        Team := VCManager.decVal t2
        Name := String.mk t3
        StartTime := displayTime (VCManager.hexVal t4)
        Board := boardName (VCManager.hexVal t5)
        Data := String.mk t6
        Comments := String.mk ((VCManager.pySplit '_' rest).headD []) } := by
  have hu1 : '_' ∉ t1 := not_underscore_of_digits h1
  have hu2 : '_' ∉ t2 := not_underscore_of_digits h2
  have hu4 : '_' ∉ t4 := not_underscore_of_hex h4
  have hu5 : '_' ∉ t5 := not_underscore_of_hex h5
  have hu6 : '_' ∉ t6 := not_underscore_of_hex h6
  have hsplit : VCManager.pySplit '_'
      (t1 ++ '_' :: (t2 ++ '_' :: (t3 ++ '_' :: (t4 ++ '_' :: (t5 ++ '_' :: (t6 ++ '_' :: rest)))))) =
      t1 :: t2 :: t3 :: t4 :: t5 :: t6 :: VCManager.pySplit '_' rest := by
    rw [pySplit_append_sep hu1, pySplit_append_sep hu2, pySplit_append_sep h3u,
      pySplit_append_sep hu4, pySplit_append_sep hu5, pySplit_append_sep hu6]
  cases hres : VCManager.pySplit '_' rest with
  | nil => exact absurd hres (pySplit_ne_nil _ _)
  | cons c cs =>
      rw [hres] at hsplit
      constructor
      · unfold VCManager.grammarMatch
        rw [hsplit]
        have h3l : 1 ≤ t3.length := List.length_pos.mpr h3
        simp [h1, h1a, h1b, h2, h2a, h2b, h3l, h4, h4l, h5, h5l, h6, h6l]
      · unfold VCManager.make_columns
        rw [hsplit]
        rfl

/-- Witness for `import_line_conversion`: the spec's example line, with the
trailing `,ignored` field stripped; board id 1 resolves to "Comp" and the
start-time hex `0000001e` is 30. -/
theorem import_line_conversion_witness :
    VCManager.stripLine ("5_200_Sam_0000001e_00000001_00ff_hello,ignored".data) =
      "5_200_Sam_0000001e_00000001_00ff_hello".data
    ∧ VCManager.grammarMatch ("5_200_Sam_0000001e_00000001_00ff_hello".data) = true
    ∧ VCManager.make_columns boardById0 dt0 ("5_200_Sam_0000001e_00000001_00ff_hello".data) =
      { Match := 5, Team := 200, Name := "Sam", StartTime := dt0 30,
        Board := "Comp", Data := "00ff", Comments := "hello" } := by
  have h := import_line_conversion boardById0 dt0 "5".data "200".data "Sam".data
    "0000001e".data "00000001".data "00ff".data "hello".data
    (by decide) (by decide) (by decide) (by decide) (by decide) (by decide)
    (by decide) (by decide) (by decide) (by decide) (by decide) (by decide)
    (by decide) (by decide)
  refine ⟨by decide, ?_, ?_⟩
  · exact h.1
  · exact h.2

/-- C5 (counterexample to the claim as stated): comments are not taken
verbatim.  With an underscore in the free text (`hel_lo`), the line matches
the grammar but conversion stores only `hel`; with a comma in the free text
(`com,ments`), `read_one` deletes the comma and conversion stores
`comments`. -/
theorem comments_verbatim_counterexample :
    VCManager.grammarMatch
      (VCManager.stripLine ("5_200_Sam_0000001e_00000001_00ff_hel_lo,x".data)) = true
    ∧ (VCManager.make_columns boardById0 dt0
        (VCManager.stripLine ("5_200_Sam_0000001e_00000001_00ff_hel_lo,x".data))).Comments =
        "hel"
    ∧ VCManager.grammarMatch
        (VCManager.stripLine ("5_200_Sam_0000001e_00000001_00ff_com,ments,x".data)) = true
    ∧ (VCManager.make_columns boardById0 dt0
        (VCManager.stripLine ("5_200_Sam_0000001e_00000001_00ff_com,ments,x".data))).Comments =
        "comments" := by
  refine ⟨by decide, by decide, by decide, by decide⟩

section NavigationLemmas

theorem entry_at_of_labels_range {tbl : Df EditedEntry} {j : Nat}
    (bn : String → String) (dec : String → String → List String)
    (h : labels tbl = List.range' 0 tbl.length) (hj : j < tbl.length) :
    ∃ r, (rowsOf tbl).get? j = some r ∧
      EntryManager.entry_at bn dec tbl j =
        Except.ok (some (EntryManager.entryInfoOfRow bn dec r)) := by
  have hlen : (rowsOf tbl).length = tbl.length := List.length_map _ _
  have hj2 : j < (rowsOf tbl).length := by omega
  obtain ⟨r, hr⟩ : ∃ r, (rowsOf tbl).get? j = some r :=
    ⟨(rowsOf tbl).get ⟨j, hj2⟩, List.get?_eq_get hj2⟩
  have hmem : j ∈ labels tbl := by
    rw [h, List.mem_range'_1]
    omega
  have hd : EntryManager.data_row_at tbl j = Except.ok (some r) := by
    unfold EntryManager.data_row_at
    rw [if_pos hmem, hr]
  refine ⟨r, hr, ?_⟩
  unfold EntryManager.entry_at
  rw [hd]

theorem lookupLabel_of_mem {tbl : Df EditedEntry} {idx : Nat} {row : EditedEntry}
    (hnd : (labels tbl).Nodup) (hm : (idx, row) ∈ tbl) :
    EntryManager.lookupLabel tbl idx = some row := by
  induction tbl with
  | nil => cases hm
  | cons p ps ih =>
      have hnd2 : (labels ps).Nodup ∧ p.1 ∉ labels ps := by
        have h0 : (p.1 :: labels ps).Nodup := by simpa [labels] using hnd
        exact ⟨(List.nodup_cons.mp h0).2, (List.nodup_cons.mp h0).1⟩
      rcases List.mem_cons.mp hm with h | h
      · rw [← h]
        simp [EntryManager.lookupLabel]
      · have hmemlab : idx ∈ labels ps := List.mem_map.mpr ⟨(idx, row), h, rfl⟩
        have hne : p.1 ≠ idx := by
          intro he
          rw [he] at hnd2
          exact hnd2.2 hmemlab
        simp [EntryManager.lookupLabel, hne, ih hnd2.1 h]

theorem lookupLabel_of_not_mem {tbl : Df EditedEntry} {idx : Nat}
    (h : idx ∉ labels tbl) : EntryManager.lookupLabel tbl idx = none := by
  induction tbl with
  | nil => rfl
  | cons p ps ih =>
      have h1 : p.1 ≠ idx := by
        intro he
        exact h (by simp [labels, he])
      have h2 : idx ∉ labels ps := by
        intro hm
        apply h
        simp only [labels, List.map_cons, List.mem_cons]
        exact Or.inr hm
      simp [EntryManager.lookupLabel, h1, ih h2]

end NavigationLemmas

/-- C7 (counterexample to the claim as stated): on a table whose labels
have a gap, navigation lands on identity 2, whose label-membership test
passes but whose positional `.iloc[2]` read is out of bounds: the call
raises IndexError instead of returning the decoded entry. -/
theorem get_relative_gap_counterexample :
    EntryManager.get_relative_entry bn0 dec0 gapTbl [0, 2] 0 1 = Except.error () := rfl

/-- C7 (amended): for a table with the default contiguous labels `0..n-1`
and a view whose identity list lies within the table, `get_relative_entry`
returns the empty marker on an empty view, the decoded entry at position
`(position_of(current) + offset) mod length` of the identity list when
`current` is in the list, and the decoded entry at position 0 otherwise.
On tables whose labels have gaps the lookup can instead raise IndexError. -/
theorem get_relative_spec (bn : String → String) (dec : String → String → List String)
    (tbl : Df EditedEntry) (indices : List Nat) (current : Nat) (inc : Int)
    (hl : labels tbl = List.range' 0 tbl.length)
    (hidx : ∀ i ∈ indices, i < tbl.length) :
    (indices = [] →
      EntryManager.get_relative_entry bn dec tbl indices current inc = Except.ok none)
    ∧ (current ∈ indices →
        ∃ r, (rowsOf tbl).get?
            (indices.getD
              ((((indices.indexOf current : Nat) : Int) + inc).emod (indices.length : Int)).toNat
              0) = some r ∧
          EntryManager.get_relative_entry bn dec tbl indices current inc =
            Except.ok (some (EntryManager.entryInfoOfRow bn dec r)))
    ∧ (indices ≠ [] → current ∉ indices →
        ∃ r, (rowsOf tbl).get? (indices.getD 0 0) = some r ∧
          EntryManager.get_relative_entry bn dec tbl indices current inc =
            Except.ok (some (EntryManager.entryInfoOfRow bn dec r))) := by
  refine ⟨?_, ?_, ?_⟩
  · intro he
    subst he
    rfl
  · intro hc
    have hne : indices.length ≠ 0 := by
      intro h0
      rw [List.length_eq_zero] at h0
      subst h0
      cases hc
    have hlp : 0 < indices.length := Nat.pos_of_ne_zero hne
    have hmod1 : 0 ≤ ((((indices.indexOf current : Nat) : Int)) + inc).emod (indices.length : Int) :=
      Int.emod_nonneg _ (by exact_mod_cast hne)
    have hmod2 : ((((indices.indexOf current : Nat) : Int)) + inc).emod (indices.length : Int) <
        (indices.length : Int) :=
      Int.emod_lt_of_pos _ (by exact_mod_cast hlp)
    have hk : (((((indices.indexOf current : Nat) : Int)) + inc).emod (indices.length : Int)).toNat <
        indices.length := by omega
    have hg : indices.getD
        (((((indices.indexOf current : Nat) : Int)) + inc).emod (indices.length : Int)).toNat 0 =
        indices.get ⟨_, hk⟩ := by
      rw [List.getD_eq_get?, List.get?_eq_get hk]
      rfl
    have hjmem : indices.getD
        (((((indices.indexOf current : Nat) : Int)) + inc).emod (indices.length : Int)).toNat 0 ∈
        indices := by
      rw [hg]
      exact List.get_mem _ _ _
    have hjlt := hidx _ hjmem
    obtain ⟨r, hr, he⟩ := entry_at_of_labels_range bn dec hl hjlt
    refine ⟨r, hr, ?_⟩
    unfold EntryManager.get_relative_entry
    rw [if_pos hne, if_pos hc]
    exact he
  · intro hne hc
    have hlen0 : indices.length ≠ 0 := by
      intro h0
      exact hne (List.length_eq_zero.mp h0)
    have hmem0 : indices.getD 0 0 ∈ indices := by
      cases indices with
      | nil => exact absurd rfl hne
      | cons a as => exact List.mem_cons_self _ _
    have hjlt := hidx _ hmem0
    obtain ⟨r, hr, he⟩ := entry_at_of_labels_range bn dec hl hjlt
    refine ⟨r, hr, ?_⟩
    unfold EntryManager.get_relative_entry
    rw [if_pos hlen0, if_neg hc]
    exact he

/-- Witness for `get_relative_spec`: the wraparound example — identities
[10, 11, 12], current 12, offset +1 lands on identity 10. -/
theorem get_relative_spec_witness :
    (12 ∈ [10, 11, 12]) ∧
    EntryManager.get_relative_entry bn0 dec0 navTbl [10, 11, 12] 12 1 =
      Except.ok (some (EntryManager.entryInfoOfRow bn0 dec0 (matchRowOf 10))) := by
  obtain ⟨r, hr, he⟩ :=
    (get_relative_spec bn0 dec0 navTbl [10, 11, 12] 12 1 (by decide) (by decide)).2.1
      (by decide)
  refine ⟨by decide, ?_⟩
  have hr2 : some r = some (matchRowOf 10) := by
    rw [← hr]
    rfl
  rw [he, Option.some.inj hr2]

/-- C8 (counterexample to the claim as stated): `VerificationManager.
__getitem__` — one of the two lookups the claim covers — raises IndexError
for an identity that is not in the table, instead of returning an empty
marker. -/
theorem getitem_missing_counterexample :
    VCManager.getItem ([] : Df EditedEntry) 0 = Except.error () := rfl

/-- C8 (amended): `EntryManager.entry_at` returns the empty marker `{}` for
every identity not in the table, and `EntryManager.get_relative_entry`
falls back to the first item of a nonempty view when the current identity
is not in it; `VerificationManager.__getitem__`, by contrast, raises
IndexError on a missing identity. -/
theorem lookup_missing_fallback (bn : String → String)
    (dec : String → String → List String) (tbl : Df EditedEntry)
    (indices : List Nat) (current : Nat) (inc : Int) (idx : Nat) :
    (idx ∉ labels tbl → EntryManager.entry_at bn dec tbl idx = Except.ok none)
    ∧ (indices ≠ [] → current ∉ indices →
        EntryManager.get_relative_entry bn dec tbl indices current inc =
          EntryManager.entry_at bn dec tbl (indices.getD 0 0))
    ∧ (idx ∉ labels tbl → VCManager.getItem tbl idx = Except.error ()) := by
  refine ⟨?_, ?_, ?_⟩
  · intro h
    unfold EntryManager.entry_at EntryManager.data_row_at
    rw [if_neg h]
  · intro hne hc
    have hlen0 : indices.length ≠ 0 := by
      intro h0
      exact hne (List.length_eq_zero.mp h0)
    unfold EntryManager.get_relative_entry
    rw [if_pos hlen0, if_neg hc]
  · intro h
    unfold VCManager.getItem
    rw [if_neg h]

/-- Witness for `lookup_missing_fallback`: identity 5 is absent from the
empty table; identity 7 is absent from the view [0, 2] of `gapTbl`. -/
theorem lookup_missing_fallback_witness :
    (5 ∉ labels ([] : Df EditedEntry))
    ∧ EntryManager.entry_at bn0 dec0 ([] : Df EditedEntry) 5 = Except.ok none
    ∧ EntryManager.get_relative_entry bn0 dec0 gapTbl [0, 2] 7 1 =
        EntryManager.entry_at bn0 dec0 gapTbl 0 := by
  have h1 := lookup_missing_fallback bn0 dec0 ([] : Df EditedEntry) [0, 2] 7 1 5
  have h2 := lookup_missing_fallback bn0 dec0 gapTbl [0, 2] 7 1 5
  exact ⟨by decide, h1.1 (by decide), h2.2.1 (by decide) (by decide)⟩

/-- C9 (counterexample to the claim as stated): removing by an identity
that is not in the table is not a silent no-op — the `.loc` reads raise
KeyError. -/
theorem remove_missing_identity_counterexample :
    EntryManager.remove_entry ([] : Df EditedEntry) "5" "200" "Sam" 3 =
      Except.error () := rfl

/-- C9 (amended): when the identity is present (labels unnested), the row
at that identity is deleted iff the decimal-string forms of its Match and
Team and its Name equal the supplied strings (so arguments of other types,
e.g. ints, never delete), and the table is unchanged otherwise; when the
identity is absent, a KeyError propagates instead of a no-op. -/
theorem remove_entry_guard (tbl : Df EditedEntry) (m t nm : String) (idx : Nat) :
    (∀ row, (labels tbl).Nodup → (idx, row) ∈ tbl →
        EntryManager.remove_entry tbl m t nm idx =
          Except.ok (if Nat.repr row.Match = m ∧ Nat.repr row.Team = t ∧ row.Name = nm
            then tbl.filter (fun p => decide (p.1 ≠ idx))
            else tbl))
    ∧ (idx ∉ labels tbl →
        EntryManager.remove_entry tbl m t nm idx = Except.error ()) := by
  refine ⟨?_, ?_⟩
  · intro row hnd hm
    unfold EntryManager.remove_entry
    simp only [lookupLabel_of_mem hnd hm]
    by_cases hcond : Nat.repr row.Match = m ∧ Nat.repr row.Team = t ∧ row.Name = nm
    · rw [if_pos hcond, if_pos hcond]
    · rw [if_neg hcond, if_neg hcond]
  · intro h
    unfold EntryManager.remove_entry
    rw [lookupLabel_of_not_mem h]

/-- Witness for `remove_entry_guard`: the row labelled 3 holds
(5, 200, "Sam"); supplying the matching strings deletes it, a mismatched
match value leaves the table unchanged. -/
theorem remove_entry_guard_witness :
    (labels ([(3, sampleRow)] : Df EditedEntry)).Nodup
    ∧ EntryManager.remove_entry ([(3, sampleRow)] : Df EditedEntry) "5" "200" "Sam" 3 =
        Except.ok (([(3, sampleRow)] : Df EditedEntry).filter (fun p => decide (p.1 ≠ 3)))
    ∧ EntryManager.remove_entry ([(3, sampleRow)] : Df EditedEntry) "7" "200" "Sam" 3 =
        Except.ok [(3, sampleRow)] := by
  have h1 := (remove_entry_guard ([(3, sampleRow)] : Df EditedEntry) "5" "200" "Sam" 3).1
    sampleRow (by decide) (by decide)
  have h2 := (remove_entry_guard ([(3, sampleRow)] : Df EditedEntry) "7" "200" "Sam" 3).1
    sampleRow (by decide) (by decide)
  refine ⟨by decide, ?_, ?_⟩
  · rw [h1]
    have hc : Nat.repr sampleRow.Match = "5" ∧ Nat.repr sampleRow.Team = "200" ∧
        sampleRow.Name = "Sam" := by decide
    rw [if_pos hc]
  · rw [h2]
    have hc : ¬ (Nat.repr sampleRow.Match = "7" ∧ Nat.repr sampleRow.Team = "200" ∧
        sampleRow.Name = "Sam") := by decide
    rw [if_neg hc]
